import Mathlib

/-!
Verification of the protopuf codec library (varint, enum and array coders,
and their skippers) against a shallow embedding in Lean.

Modelling conventions:
* A byte view is a `List Nat`, each element standing for one `std::byte`
  (so elements are below 256 whenever they come from real memory).
* An unsigned integer type `T` of bit width `w` is modelled as `Nat`, with
  `% 2 ^ w` inserted exactly where the C++ computation wraps.
* Safe-mode results (`std::optional`) are `Option`; for encoders the buffer
  contents after the call are returned alongside, since the C++ functions
  mutate the buffer even on a failed call.
* Byte-view cursors are counted as offsets from the start of the view, so a
  returned remainder view is `(offset, rest)` information: encoders return
  the number of bytes written, decoders the number of bytes consumed.
-/

namespace Protopuf

/-- Embeds `skipper<varint_coder<T>>::encode_skip` (skip.h): the do-while
loop `v >>= 7, ++n` running while `v != 0`. -/
def varintEncodeSkip (v : Nat) : Nat :=
  if _h : v >>> 7 = 0 then 1 else 1 + varintEncodeSkip (v >>> 7)
termination_by v
decreasing_by
  simp only [Nat.shiftRight_eq_div_pow] at *
  omega

/-- Embeds the byte stream written by `varint_coder<T>::encode` (varint.h):
each loop iteration stores `0b1000'0000 | std::byte(n)` and shifts `n` right
by 7; after the loop the most significant bit of the last byte is cleared.
This is the unsafe-mode encoder, which performs no bounds check: it is a
function from the value to the bytes written. -/
def varintEncodeUnsafe (n : Nat) : List Nat :=
  if _h : n >>> 7 = 0 then [(128 ||| n % 256) &&& 127]
  else (128 ||| n % 256) :: varintEncodeUnsafe (n >>> 7)
termination_by n
decreasing_by
  simp only [Nat.shiftRight_eq_div_pow] at *
  omega

/-- Embeds safe-mode `varint_coder<T>::encode<true>` (varint.h).  The check
`iter == end` precedes every byte write.  Returns the number of bytes
written (`= begin_diff(result, s)`, the offset where the returned remainder
view starts) or `none` on buffer exhaustion, together with the buffer
contents after the call (the C++ code has already mutated the written
prefix when it fails). -/
def varintEncodeSafe (n : Nat) (s : List Nat) : Option Nat × List Nat :=
  match s with
  | [] => (none, [])
  | _ :: rest =>
    if n >>> 7 = 0 then
      (some 1, ((128 ||| n % 256) &&& 127) :: rest)
    else
      match varintEncodeSafe (n >>> 7) rest with
      | (r, rest1) => (r.map (· + 1), (128 ||| n % 256) :: rest1)

/-- Loop of safe-mode `varint_coder<T>::decode<true>` (varint.h) for a
`w`-bit unsigned type, carrying the byte index `i` and accumulator `n` of
the source.  Reading past the view's end is impossible: the source checks
`iter == end` before each dereference, which is the `[]` case here.
Accumulation is `n |= T(T(*iter & 0x7f) << 7*i)`, with each cast and shift
wrapping at `2 ^ w`. -/
def varintDecodeSafeAux (w : Nat) (s : List Nat) (i acc : Nat) :
    Option (Nat × Nat) :=
  match s with
  | [] => none
  | b :: rest =>
    if b >>> 7 = 1 then
      varintDecodeSafeAux w rest (i + 1)
        (acc ||| ((b &&& 127) % 2 ^ w) <<< (7 * i) % 2 ^ w)
    else
      some (acc ||| (b % 2 ^ w) <<< (7 * i) % 2 ^ w, i + 1)

/-- Embeds safe-mode `varint_coder<T>::decode<true>` (varint.h) for a
`w`-bit unsigned type.  Returns the decoded value and the number of bytes
consumed (the offset where the remainder view `bytes{iter, s.end()}`
starts), or `none` when the view is exhausted while the continuation bit is
still set. -/
def varintDecodeSafe (w : Nat) (s : List Nat) : Option (Nat × Nat) :=
  varintDecodeSafeAux w s 0 0

/-- One byte read by unsafe-mode decoding at offset `j`: inside the view it
is the view's byte, past the end it is whatever the memory `mem` behind the
view holds (the source would read out of bounds there). -/
def readByte (s : List Nat) (mem : Nat → Nat) (j : Nat) : Nat :=
  if h : j < s.length then s.get ⟨j, h⟩ else mem (j - s.length)

/-- Loop of unsafe-mode `varint_coder<T>::decode<false>` (varint.h): no
bounds check, so the read can walk past the view's end into `mem`.  The
source loop need not terminate at all on such input (it scans memory for a
byte with its most significant bit clear), hence the explicit `fuel`;
`none` marks runs longer than `fuel`. -/
def varintDecodeUnsafeAux (w : Nat) (s : List Nat) (mem : Nat → Nat)
    (j i acc fuel : Nat) : Option (Nat × Nat) :=
  match fuel with
  | 0 => none
  | fuel + 1 =>
    let b := readByte s mem j
    if b >>> 7 = 1 then
      varintDecodeUnsafeAux w s mem (j + 1) (i + 1)
        (acc ||| ((b &&& 127) % 2 ^ w) <<< (7 * i) % 2 ^ w) fuel
    else
      some (acc ||| (b % 2 ^ w) <<< (7 * i) % 2 ^ w, i + 1)

/-- Embeds unsafe-mode `varint_coder<T>::decode<false>` (varint.h). -/
def varintDecodeUnsafe (w : Nat) (s : List Nat) (mem : Nat → Nat)
    (fuel : Nat) : Option (Nat × Nat) :=
  varintDecodeUnsafeAux w s mem 0 0 0 fuel

/-- The conversion applied when the signed `varint_coder<T>` specialization
(varint.h) passes its argument to
`varint_coder<std::make_unsigned_t<T>>::encode`: the implicit
signed-to-unsigned conversion of C++, i.e. reduction modulo `2 ^ 32` for a
32-bit `T`. -/
def toU32 (n : Int) : Nat := (n % 2 ^ 32).toNat

/-- Embeds signed `varint_coder<T>::encode` (varint.h) at `T = int32`:
forwards to the unsigned coder after the same-width unsigned conversion. -/
def svarintEncodeSafe32 (n : Int) (s : List Nat) : Option Nat × List Nat :=
  varintEncodeSafe (toU32 n) s

/-- Embeds `skipper<varint_coder<T>>::encode_skip` for signed `T = int32`
(skip.h): forwards to the unsigned skipper after
`static_cast<std::make_unsigned_t<T>>`. -/
def svarintEncodeSkip32 (n : Int) : Nat := varintEncodeSkip (toU32 n)

/-- Embeds `enum_coder<T>::encode` (enum.h) for an enumeration whose
underlying type is `int` (32 bits): casts the enumerator to the underlying
type and forwards to `varint_coder<int>`, hence to `varint_coder<unsigned>`
by the same-width unsigned conversion. -/
def enumEncodeSafe (v : Int) (s : List Nat) : Option Nat × List Nat :=
  varintEncodeSafe (toU32 v) s

/-- Embeds `skipper<enum_coder<T>>::encode_skip` (skip.h) for an
enumeration with underlying type `int`: the varint skipper applied to the
underlying value. -/
def enumEncodeSkip (v : Int) : Nat := varintEncodeSkip (toU32 v)

/-- Embeds safe-mode `skipper<enum_coder<T>>::decode_skip<true>` (skip.h)
for an enumeration with underlying type `int`.  The source delegates to
`skipper<integer_coder<std::underlying_type_t<T>>>::decode_skip`, the
fixed-width skipper: fail if fewer than `sizeof(int) = 4` bytes remain,
otherwise advance exactly 4 bytes.  Returns the number of bytes skipped. -/
def enumDecodeSkipSafe (s : List Nat) : Option Nat :=
  if s.length < 4 then none else some 4

/-- The element-count loop of `array_coder<C, R>::encode` and of
`skipper<array_coder<C, R>>::encode_skip` (array.h):
`for (i : con) n += skipper<C>::encode_skip(i)` with `n` a `uint<8>`
(64-bit) accumulator, so each addition wraps at `2 ^ 64`. -/
def sumSkipsU64 (elemSkip : α → Nat) (con : List α) : Nat :=
  con.foldl (fun n a => (n + elemSkip a) % 2 ^ 64) 0

/-- The element loop of `array_coder<C, R>::encode` (array.h): encode each
element in order into the remaining buffer, short-circuiting on the first
absent result.  `elemEnc` is the embedding of `C::encode<true>` in the
same (bytes-written, buffer-after-call) convention as `varintEncodeSafe`.
Returns the total bytes written by the loop and the buffer after it. -/
def arrayEncodeElems (elemEnc : α → List Nat → Option Nat × List Nat)
    (con : List α) (buf : List Nat) : Option Nat × List Nat :=
  match con with
  | [] => (some 0, buf)
  | a :: rest =>
    match elemEnc a buf with
    | (none, buf1) => (none, buf1)
    | (some k, buf1) =>
      match arrayEncodeElems elemEnc rest (buf1.drop k) with
      | (r, buf2) => (r.map (k + ·), buf1.take k ++ buf2)

/-- Embeds safe-mode `array_coder<C, R>::encode<true>` (array.h): sum the
element skips into `n`, emit `varint_coder<uint<8>>::encode(n)`, then each
element in order. -/
def arrayEncode (elemSkip : α → Nat)
    (elemEnc : α → List Nat → Option Nat × List Nat)
    (con : List α) (b : List Nat) : Option Nat × List Nat :=
  let n := sumSkipsU64 elemSkip con
  match varintEncodeSafe n b with
  | (none, b1) => (none, b1)
  | (some k, b1) =>
    match arrayEncodeElems elemEnc con (b1.drop k) with
    | (r, b2) => (r.map (k + ·), b1.take k ++ b2)

/-- Embeds `skipper<array_coder<C, R>>::encode_skip` (array.h): the element
skip sum `n`, plus the length of its own varint encoding
(`n += skipper<varint_coder<uint<8>>>::encode_skip(n)`), wrapping at
`2 ^ 64` since `n` is a `uint<8>`. -/
def arrayEncodeSkip (elemSkip : α → Nat) (con : List α) : Nat :=
  let n := sumSkipsU64 elemSkip con
  (n + varintEncodeSkip n) % 2 ^ 64

/-- The element loop of safe-mode `array_coder<C, R>::decode<true>`
(array.h): `while (begin_diff(b, origin_b) < len)` decode one element from
the current position and insert it.  `pos` is `begin_diff(b, origin_b)`,
`payload` the view starting at `origin_b`, and `elemDec` the embedding of
`C::decode<true>` returning the element and the bytes it consumed.  The
source loop terminates only because every protopuf element decoder consumes
at least one byte; `fuel` makes that explicit (`none` on exhaustion stands
for the loop running forever, which no protopuf coder triggers). -/
def arrayDecodeLoop (elemDec : List Nat → Option (α × Nat))
    (payload : List Nat) (pos len fuel : Nat) : Option (List α × Nat) :=
  if len ≤ pos then some ([], pos)
  else
    match fuel with
    | 0 => none
    | fuel + 1 =>
      match elemDec (payload.drop pos) with
      | none => none
      | some (a, k) =>
        match arrayDecodeLoop elemDec payload (pos + k) len fuel with
        | none => none
        | some (as_, fin) => some (a :: as_, fin)

/-- Embeds safe-mode `array_coder<C, R>::decode<true>` (array.h): read the
length prefix via `varint_coder<uint<8>>::decode`, then run the element
loop until the consumed payload reaches `len`.  Returns the decoded
elements and the total bytes consumed from `b`. -/
def arrayDecode (elemDec : List Nat → Option (α × Nat)) (b : List Nat) :
    Option (List α × Nat) :=
  match varintDecodeSafe 64 b with
  | none => none
  | some (len, k) =>
    match arrayDecodeLoop elemDec (b.drop k) 0 len len with
    | none => none
    | some (con, fin) => some (con, k + fin)

/-! ### Arithmetic facts about single encoded bytes -/

theorem shift7_eq_zero_iff (n : Nat) : n >>> 7 = 0 ↔ n < 128 := by
  simp only [Nat.shiftRight_eq_div_pow]
  omega

set_option maxRecDepth 2048 in
theorem byte_lt_or_small (q : Nat) (h : q < 256) :
    128 ||| q = 128 + q % 128 := by
  revert q h
  decide

theorem byte_or_eq (n : Nat) : 128 ||| n % 256 = 128 + n % 128 := by
  rw [byte_lt_or_small (n % 256) (Nat.mod_lt n (by norm_num)),
    Nat.mod_mod_of_dvd n (by norm_num)]

set_option maxRecDepth 2048 in
theorem byte_and_small (q : Nat) (h : q < 256) :
    (128 ||| q) &&& 127 = q % 128 := by
  revert q h
  decide

theorem byte_and_eq (n : Nat) : (128 ||| n % 256) &&& 127 = n % 128 := by
  rw [byte_and_small (n % 256) (Nat.mod_lt n (by norm_num)),
    Nat.mod_mod_of_dvd n (by norm_num)]

theorem shiftRight7_of_ge (b : Nat) (h1 : 128 ≤ b) (h2 : b < 256) :
    b >>> 7 = 1 := by
  simp only [Nat.shiftRight_eq_div_pow]
  omega

/-! ### Varint encoder characterization -/

theorem varintEncodeSkip_small (n : Nat) (h : n < 128) :
    varintEncodeSkip n = 1 := by
  rw [varintEncodeSkip]
  simp [(shift7_eq_zero_iff n).mpr h]

theorem varintEncodeSkip_large (n : Nat) (h : 128 ≤ n) :
    varintEncodeSkip n = 1 + varintEncodeSkip (n >>> 7) := by
  rw [varintEncodeSkip]
  have : ¬ n >>> 7 = 0 := fun hc => by
    have := (shift7_eq_zero_iff n).mp hc
    omega
  simp [this]

theorem varintEncodeSkip_pos (n : Nat) : 1 ≤ varintEncodeSkip n := by
  rw [varintEncodeSkip]
  split
  · exact Nat.le_refl 1
  · omega

theorem varintEncodeUnsafe_small (n : Nat) (h : n < 128) :
    varintEncodeUnsafe n = [n % 128] := by
  rw [varintEncodeUnsafe]
  simp [(shift7_eq_zero_iff n).mpr h, byte_and_eq]

theorem varintEncodeUnsafe_large (n : Nat) (h : 128 ≤ n) :
    varintEncodeUnsafe n =
      (128 + n % 128) :: varintEncodeUnsafe (n >>> 7) := by
  rw [varintEncodeUnsafe]
  have hne : ¬ n >>> 7 = 0 := fun hc => by
    have := (shift7_eq_zero_iff n).mp hc
    omega
  simp [hne, byte_or_eq]

theorem varintEncodeUnsafe_length (n : Nat) :
    (varintEncodeUnsafe n).length = varintEncodeSkip n := by
  induction n using Nat.strong_induction_on with
  | _ n ih =>
    by_cases h : n < 128
    · rw [varintEncodeUnsafe_small n h, varintEncodeSkip_small n h]
      rfl
    · push_neg at h
      rw [varintEncodeUnsafe_large n h, varintEncodeSkip_large n h]
      have hlt : n >>> 7 < n := by
        simp only [Nat.shiftRight_eq_div_pow]
        omega
      simp [ih _ hlt]
      omega

theorem varintEncodeUnsafe_ne_nil (n : Nat) : varintEncodeUnsafe n ≠ [] := by
  intro hc
  have h1 := varintEncodeUnsafe_length n
  rw [hc] at h1
  have h2 := varintEncodeSkip_pos n
  simp at h1
  omega

theorem varintEncodeSafe_success (n : Nat) (s : List Nat)
    (h : varintEncodeSkip n ≤ s.length) :
    varintEncodeSafe n s =
      (some (varintEncodeSkip n),
       varintEncodeUnsafe n ++ s.drop (varintEncodeSkip n)) := by
  induction s generalizing n with
  | nil =>
    have := varintEncodeSkip_pos n
    simp at h
    omega
  | cons c rest ih =>
    by_cases hn : n < 128
    · rw [varintEncodeSkip_small n hn] at *
      rw [varintEncodeSafe, varintEncodeUnsafe_small n hn]
      simp [(shift7_eq_zero_iff n).mpr hn, byte_and_eq]
    · push_neg at hn
      have hguard : ¬ n >>> 7 = 0 := fun hc => by
        have := (shift7_eq_zero_iff n).mp hc
        omega
      rw [varintEncodeSkip_large n hn] at *
      have hrest : varintEncodeSkip (n >>> 7) ≤ rest.length := by
        simp at h
        omega
      rw [varintEncodeSafe]
      simp only [hguard, if_false]
      rw [ih (n >>> 7) hrest, varintEncodeUnsafe_large n hn, byte_or_eq]
      simp [Nat.add_comm 1 (varintEncodeSkip (n >>> 7))]

theorem varintEncodeSafe_sndLength (n : Nat) (s : List Nat) :
    ((varintEncodeSafe n s).2).length = s.length := by
  induction s generalizing n with
  | nil => rfl
  | cons c rest ih =>
    rw [varintEncodeSafe]
    by_cases hg : n >>> 7 = 0
    · simp [hg]
    · rcases hE : varintEncodeSafe (n >>> 7) rest with ⟨r1, rest1⟩
      have := ih (n >>> 7)
      rw [hE] at this
      simp [hg, hE]
      simpa using this

theorem varintEncodeSafe_fst_none (n : Nat) (s : List Nat)
    (h : s.length < varintEncodeSkip n) :
    (varintEncodeSafe n s).1 = none := by
  induction s generalizing n with
  | nil => rfl
  | cons c rest ih =>
    rw [varintEncodeSafe]
    by_cases hn : n < 128
    · rw [varintEncodeSkip_small n hn] at h
      simp at h
    · push_neg at hn
      have hguard : ¬ n >>> 7 = 0 := fun hc => by
        have := (shift7_eq_zero_iff n).mp hc
        omega
      rw [varintEncodeSkip_large n hn] at h
      have hrest : rest.length < varintEncodeSkip (n >>> 7) := by
        simp at h
        omega
      rcases hE : varintEncodeSafe (n >>> 7) rest with ⟨r1, rest1⟩
      have := ih (n >>> 7) hrest
      rw [hE] at this
      simp at this
      simp [hguard, hE, this]

/-! ### Varint decoder on encoded input -/

theorem add128_and_small (r : Nat) (h : r < 128) : (128 + r) &&& 127 = r := by
  revert r h
  decide

theorem lor_mul_eq_add (a c k : Nat) (ha : a < 2 ^ k) :
    a ||| c * 2 ^ k = a + c * 2 ^ k := by
  have h := Nat.mul_add_lt_is_or ha c
  rw [Nat.lor_comm, Nat.mul_comm c (2 ^ k)]
  omega

theorem varintDecodeSafeAux_encode (w : Nat) (hw : 8 ≤ w) (n : Nat) :
    ∀ (i acc : Nat) (t : List Nat),
      n * 2 ^ (7 * i) < 2 ^ w → acc < 2 ^ (7 * i) →
      varintDecodeSafeAux w (varintEncodeUnsafe n ++ t) i acc =
        some (acc + n * 2 ^ (7 * i), i + varintEncodeSkip n) := by
  have h256 : (256 : Nat) ≤ 2 ^ w := by
    calc (256 : Nat) = 2 ^ 8 := by norm_num
    _ ≤ 2 ^ w := Nat.pow_le_pow_right (by norm_num) hw
  induction n using Nat.strong_induction_on with
  | _ n ih =>
    intro i acc t hn hacc
    by_cases hsmall : n < 128
    · rw [varintEncodeUnsafe_small n hsmall, varintEncodeSkip_small n hsmall]
      have hb : n % 128 = n := Nat.mod_eq_of_lt hsmall
      rw [hb]
      have hg : ¬ n >>> 7 = 1 := by
        rw [(shift7_eq_zero_iff n).mpr hsmall]
        omega
      rw [List.cons_append, varintDecodeSafeAux]
      simp only [hg, if_false]
      rw [Nat.mod_eq_of_lt (by omega : n < 2 ^ w), Nat.shiftLeft_eq,
        Nat.mod_eq_of_lt hn, lor_mul_eq_add acc n (7 * i) hacc]
    · push_neg at hsmall
      have hb : 128 ≤ 128 + n % 128 ∧ 128 + n % 128 < 256 := by
        have := Nat.mod_lt n (show 0 < 128 by norm_num)
        omega
      rw [varintEncodeUnsafe_large n hsmall, varintEncodeSkip_large n hsmall,
        List.cons_append, varintDecodeSafeAux]
      rw [shiftRight7_of_ge _ hb.1 hb.2]
      simp only [if_true]
      rw [add128_and_small (n % 128) (Nat.mod_lt n (by norm_num))]
      have hmod : n % 128 % 2 ^ w = n % 128 := by
        apply Nat.mod_eq_of_lt
        have := Nat.mod_lt n (show 0 < 128 by norm_num)
        omega
      have hle : n % 128 * 2 ^ (7 * i) ≤ n * 2 ^ (7 * i) :=
        Nat.mul_le_mul_right _ (Nat.mod_le n 128)
      rw [hmod, Nat.shiftLeft_eq, Nat.mod_eq_of_lt (by omega),
        lor_mul_eq_add acc (n % 128) (7 * i) hacc]
      have hpow : 2 ^ (7 * (i + 1)) = 2 ^ (7 * i) * 128 := by
        rw [show 7 * (i + 1) = 7 * i + 7 by ring, Nat.pow_add]
      have hlt : n >>> 7 < n := by
        simp only [Nat.shiftRight_eq_div_pow]
        omega
      have hdivle : n >>> 7 * 2 ^ (7 * (i + 1)) ≤ n * 2 ^ (7 * i) := by
        rw [hpow, Nat.shiftRight_eq_div_pow]
        calc n / 2 ^ 7 * (2 ^ (7 * i) * 128)
            = n / 128 * 128 * 2 ^ (7 * i) := by ring_nf
          _ ≤ n * 2 ^ (7 * i) :=
            Nat.mul_le_mul_right _ (Nat.div_mul_le_self n 128)
      have hacc1 : acc + n % 128 * 2 ^ (7 * i) < 2 ^ (7 * (i + 1)) := by
        have := Nat.mod_lt n (show 0 < 128 by norm_num)
        have h1 : n % 128 * 2 ^ (7 * i) ≤ 127 * 2 ^ (7 * i) :=
          Nat.mul_le_mul_right _ (by omega)
        rw [hpow]
        omega
      rw [ih (n >>> 7) hlt (i + 1) (acc + n % 128 * 2 ^ (7 * i)) t
        (by omega) hacc1]
      have hsplit : n % 128 * 2 ^ (7 * i) + n >>> 7 * 2 ^ (7 * (i + 1)) =
          n * 2 ^ (7 * i) := by
        rw [hpow, Nat.shiftRight_eq_div_pow]
        have h0 : n % 128 + 128 * (n / 128) = n := Nat.mod_add_div n 128
        calc n % 128 * 2 ^ (7 * i) + n / 2 ^ 7 * (2 ^ (7 * i) * 128)
            = (n % 128 + 128 * (n / 128)) * 2 ^ (7 * i) := by ring_nf
          _ = n * 2 ^ (7 * i) := by rw [h0]
      simp only [Option.some.injEq, Prod.mk.injEq]
      exact ⟨by omega, by omega⟩

theorem varintDecodeSafeAux_consumed (w : Nat) (s : List Nat) :
    ∀ (i acc x k : Nat), varintDecodeSafeAux w s i acc = some (x, k) →
      i < k ∧ k ≤ i + s.length := by
  induction s with
  | nil => intro i acc x k h; exact absurd h (by simp [varintDecodeSafeAux])
  | cons b rest ih =>
    intro i acc x k h
    rw [varintDecodeSafeAux] at h
    by_cases hg : b >>> 7 = 1
    · simp only [hg, if_true] at h
      have := ih (i + 1) _ x k h
      simp only [List.length_cons]
      omega
    · simp only [hg, if_false, Option.some.injEq, Prod.mk.injEq] at h
      simp only [List.length_cons]
      omega

theorem varintDecodeSafeAux_none_iff (w : Nat) (s : List Nat)
    (hbytes : ∀ b ∈ s, b < 256) :
    ∀ (i acc : Nat),
      (varintDecodeSafeAux w s i acc = none ↔ ∀ b ∈ s, 128 ≤ b) := by
  induction s with
  | nil => intro i acc; simp [varintDecodeSafeAux]
  | cons b rest ih =>
    intro i acc
    have hb : b < 256 := hbytes b (by simp)
    have hrest : ∀ c ∈ rest, c < 256 := fun c hc =>
      hbytes c (List.mem_cons_of_mem b hc)
    rw [varintDecodeSafeAux]
    by_cases hg : b >>> 7 = 1
    · have hge : 128 ≤ b := by
        rw [Nat.shiftRight_eq_div_pow] at hg
        omega
      simp only [hg, if_true]
      rw [ih hrest (i + 1) _]
      simp [hge]
    · have hlt : b < 128 := by
        rw [Nat.shiftRight_eq_div_pow] at hg
        omega
      simp only [hg, if_false]
      constructor
      · intro hc; exact absurd hc (by simp)
      · intro hall
        have := hall b (by simp)
        omega

/-! ### The canonical length formula -/

theorem size_shiftRight7 (n : Nat) (h : 128 ≤ n) :
    (n >>> 7).size = n.size - 7 := by
  have hs8 : 8 ≤ n.size := by
    have : 7 < n.size := Nat.lt_size.mpr (by norm_num; omega)
    omega
  have hub : n < 2 ^ n.size := Nat.lt_size_self n
  have hlb : 2 ^ (n.size - 1) ≤ n := Nat.lt_size.mp (by omega)
  have hdiv : n >>> 7 = n / 2 ^ 7 := Nat.shiftRight_eq_div_pow n 7
  apply Nat.le_antisymm
  · apply Nat.size_le.mpr
    rw [hdiv]
    apply Nat.div_lt_of_lt_mul
    calc n < 2 ^ n.size := hub
      _ = 2 ^ 7 * 2 ^ (n.size - 7) := by
        rw [← Nat.pow_add]
        congr 1
        omega
  · have h1 : 2 ^ (n.size - 8) ≤ n >>> 7 := by
      rw [hdiv]
      apply (Nat.le_div_iff_mul_le (by norm_num)).mpr
      have h2 : 2 ^ (n.size - 8) * 2 ^ 7 = 2 ^ (n.size - 1) := by
        rw [← Nat.pow_add]
        congr 1
        omega
      rw [h2]
      exact hlb
    have h3 := Nat.lt_size.mpr h1
    omega

theorem varintEncodeSkip_eq_max (n : Nat) :
    varintEncodeSkip n = max 1 ((n.size + 6) / 7) := by
  induction n using Nat.strong_induction_on with
  | _ n ih =>
    by_cases hsmall : n < 128
    · rw [varintEncodeSkip_small n hsmall]
      have : n.size ≤ 7 := Nat.size_le.mpr (by omega)
      omega
    · push_neg at hsmall
      have hlt : n >>> 7 < n := by
        simp only [Nat.shiftRight_eq_div_pow]
        omega
      have hs8 : 8 ≤ n.size := by
        have : 7 < n.size := Nat.lt_size.mpr (by norm_num; omega)
        omega
      rw [varintEncodeSkip_large n hsmall, ih (n >>> 7) hlt,
        size_shiftRight7 n hsmall]
      omega

/-! ### Byte structure of an encoded varint -/

theorem varintEncodeUnsafe_dropLast (n : Nat) :
    ∀ b ∈ (varintEncodeUnsafe n).dropLast, 128 ≤ b := by
  induction n using Nat.strong_induction_on with
  | _ n ih =>
    by_cases hsmall : n < 128
    · rw [varintEncodeUnsafe_small n hsmall]
      simp
    · push_neg at hsmall
      have hlt : n >>> 7 < n := by
        simp only [Nat.shiftRight_eq_div_pow]
        omega
      rw [varintEncodeUnsafe_large n hsmall,
        List.dropLast_cons_of_ne_nil (varintEncodeUnsafe_ne_nil (n >>> 7))]
      intro b hb
      rcases List.mem_cons.mp hb with hhead | htail
      · omega
      · exact ih (n >>> 7) hlt b htail

theorem varintEncodeUnsafe_getLastD (n : Nat) :
    ∀ d, (varintEncodeUnsafe n).getLastD d < 128 := by
  induction n using Nat.strong_induction_on with
  | _ n ih =>
    intro d
    by_cases hsmall : n < 128
    · rw [varintEncodeUnsafe_small n hsmall]
      have := Nat.mod_lt n (show 0 < 128 by norm_num)
      simpa using this
    · push_neg at hsmall
      have hlt : n >>> 7 < n := by
        simp only [Nat.shiftRight_eq_div_pow]
        omega
      rw [varintEncodeUnsafe_large n hsmall, List.getLastD_cons]
      exact ih (n >>> 7) hlt _

/-! ### Unsafe-mode decoding agrees with safe mode on complete varints -/

theorem varintDecodeUnsafeAux_eq_safe (w : Nat) (mem : Nat → Nat) :
    ∀ (fuel j i acc : Nat) (s : List Nat),
      (∃ b ∈ s.drop j, b < 128) → s.length ≤ j + fuel →
      varintDecodeUnsafeAux w s mem j i acc fuel =
        varintDecodeSafeAux w (s.drop j) i acc := by
  intro fuel
  induction fuel with
  | zero =>
    intro j i acc s hterm hlen
    rw [List.drop_eq_nil_of_le (by omega)] at hterm
    simp at hterm
  | succ fuel ih =>
    intro j i acc s hterm hlen
    by_cases hj : j < s.length
    · rw [List.drop_eq_getElem_cons hj]
      have hread : readByte s mem j = s[j] := by
        rw [readByte]
        simp [hj]
      rw [varintDecodeUnsafeAux, varintDecodeSafeAux]
      simp only [hread]
      by_cases hg : s[j] >>> 7 = 1
      · simp only [hg, if_true]
        rw [ih (j + 1) (i + 1) _ s ?_ (by omega)]
        rcases hterm with ⟨b, hb, hblt⟩
        rw [List.drop_eq_getElem_cons hj] at hb
        rcases List.mem_cons.mp hb with hhead | htail
        · exfalso
          rw [Nat.shiftRight_eq_div_pow] at hg
          subst hhead
          omega
        · exact ⟨b, htail, hblt⟩
      · simp only [hg, if_false]
    · rw [List.drop_eq_nil_of_le (by omega)] at hterm
      simp at hterm

/-! ### Array coder lemmas -/

theorem foldl_skip_mod (elemSkip : α → Nat) (con : List α) :
    ∀ n, n + (con.map elemSkip).sum < 2 ^ 64 →
      con.foldl (fun n a => (n + elemSkip a) % 2 ^ 64) n =
        n + (con.map elemSkip).sum := by
  induction con with
  | nil => intro n _; simp
  | cons a rest ih =>
    intro n h
    simp only [List.map_cons, List.sum_cons] at h
    rw [List.foldl_cons, Nat.mod_eq_of_lt (by omega),
      ih (n + elemSkip a) (by omega)]
    simp only [List.map_cons, List.sum_cons]
    omega

theorem sumSkipsU64_eq (elemSkip : α → Nat) (con : List α)
    (h : (con.map elemSkip).sum < 2 ^ 64) :
    sumSkipsU64 elemSkip con = (con.map elemSkip).sum := by
  rw [sumSkipsU64, foldl_skip_mod elemSkip con 0 (by omega)]
  omega

theorem arrayEncodeElems_success (elemSkip : α → Nat)
    (elemWritten : α → List Nat)
    (elemEnc : α → List Nat → Option Nat × List Nat)
    (hlen : ∀ a, (elemWritten a).length = elemSkip a)
    (henc : ∀ a s, elemSkip a ≤ s.length →
      elemEnc a s = (some (elemSkip a), elemWritten a ++ s.drop (elemSkip a)))
    (con : List α) :
    ∀ buf : List Nat, (con.map elemSkip).sum ≤ buf.length →
      arrayEncodeElems elemEnc con buf =
        (some (con.map elemSkip).sum,
         (con.map elemWritten).flatten ++ buf.drop (con.map elemSkip).sum) := by
  induction con with
  | nil => intro buf _; simp [arrayEncodeElems]
  | cons a rest ih =>
    intro buf hbuf
    simp only [List.map_cons, List.sum_cons] at hbuf
    have hka : elemSkip a ≤ buf.length := by omega
    rw [arrayEncodeElems, henc a buf hka]
    have hdroplen : ((elemWritten a ++ buf.drop (elemSkip a)).drop
        (elemSkip a)) = buf.drop (elemSkip a) := by
      rw [← hlen a]
      exact List.drop_left _ _
    have htake : ((elemWritten a ++ buf.drop (elemSkip a)).take
        (elemSkip a)) = elemWritten a := by
      rw [← hlen a]
      exact List.take_left _ _
    have hrest : (rest.map elemSkip).sum ≤ (buf.drop (elemSkip a)).length := by
      simp only [List.length_drop]
      omega
    dsimp only
    rw [hdroplen, ih (buf.drop (elemSkip a)) hrest]
    dsimp only
    simp only [htake, List.map_cons, List.sum_cons, List.flatten_cons,
      Option.map_some]
    rw [List.drop_drop, List.append_assoc]
    congr 2

theorem arrayDecodeLoop_ge_len (elemDec : List Nat → Option (α × Nat))
    (payload : List Nat) :
    ∀ (fuel pos len : Nat) (as_ : List α) (fin : Nat),
      arrayDecodeLoop elemDec payload pos len fuel = some (as_, fin) →
      len ≤ fin := by
  intro fuel
  induction fuel with
  | zero =>
    intro pos len as_ fin h
    rw [arrayDecodeLoop] at h
    by_cases hle : len ≤ pos
    · simp only [hle, if_true, Option.some.injEq, Prod.mk.injEq] at h
      omega
    · simp [hle] at h
  | succ fuel ih =>
    intro pos len as_ fin h
    rw [arrayDecodeLoop] at h
    by_cases hle : len ≤ pos
    · simp only [hle, if_true, Option.some.injEq, Prod.mk.injEq] at h
      omega
    · simp only [hle, if_false] at h
      rcases hE : elemDec (payload.drop pos) with _ | ⟨a, k⟩
      · rw [hE] at h
        simp at h
      · rw [hE] at h
        dsimp only at h
        rcases hL : arrayDecodeLoop elemDec payload (pos + k) len fuel with
          _ | ⟨as1, fin1⟩
        · rw [hL] at h
          simp at h
        · rw [hL] at h
          simp only [Option.some.injEq, Prod.mk.injEq] at h
          have := ih (pos + k) len as1 fin1 hL
          omega

theorem arrayDecodeLoop_le_length (elemDec : List Nat → Option (α × Nat))
    (payload : List Nat)
    (helem : ∀ s a k, elemDec s = some (a, k) → k ≤ s.length) :
    ∀ (fuel pos len : Nat) (as_ : List α) (fin : Nat),
      pos ≤ payload.length →
      arrayDecodeLoop elemDec payload pos len fuel = some (as_, fin) →
      fin ≤ payload.length := by
  intro fuel
  induction fuel with
  | zero =>
    intro pos len as_ fin hpos h
    rw [arrayDecodeLoop] at h
    by_cases hle : len ≤ pos
    · simp only [hle, if_true, Option.some.injEq, Prod.mk.injEq] at h
      omega
    · simp [hle] at h
  | succ fuel ih =>
    intro pos len as_ fin hpos h
    rw [arrayDecodeLoop] at h
    by_cases hle : len ≤ pos
    · simp only [hle, if_true, Option.some.injEq, Prod.mk.injEq] at h
      omega
    · simp only [hle, if_false] at h
      rcases hE : elemDec (payload.drop pos) with _ | ⟨a, k⟩
      · rw [hE] at h
        simp at h
      · rw [hE] at h
        dsimp only at h
        have hk := helem _ a k hE
        simp only [List.length_drop] at hk
        rcases hL : arrayDecodeLoop elemDec payload (pos + k) len fuel with
          _ | ⟨as1, fin1⟩
        · rw [hL] at h
          simp at h
        · rw [hL] at h
          simp only [Option.some.injEq, Prod.mk.injEq] at h
          have := ih (pos + k) len as1 fin1 (by omega) hL
          omega

theorem varintDecodeSafe_consumed_le (w : Nat) (t : List Nat) (x k : Nat)
    (h : varintDecodeSafe w t = some (x, k)) : k ≤ t.length := by
  have := varintDecodeSafeAux_consumed w t 0 0 x k h
  omega

theorem arrayDecode_consumed_le (elemDec : List Nat → Option (α × Nat))
    (helem : ∀ x a k, elemDec x = some (a, k) → k ≤ x.length)
    (u : List Nat) (con : List α) (k : Nat)
    (h : arrayDecode elemDec u = some (con, k)) : k ≤ u.length := by
  rw [arrayDecode] at h
  rcases hP : varintDecodeSafe 64 u with _ | ⟨len, j⟩
  · rw [hP] at h
    simp at h
  · rw [hP] at h
    dsimp only at h
    rcases hL : arrayDecodeLoop elemDec (u.drop j) 0 len len with _ | ⟨con1, fin⟩
    · rw [hL] at h
      simp at h
    · rw [hL] at h
      simp only [Option.some.injEq, Prod.mk.injEq] at h
      have hj := varintDecodeSafe_consumed_le 64 u len j hP
      have hfin := arrayDecodeLoop_le_length elemDec (u.drop j) helem
        len 0 len con1 fin (by omega) hL
      simp only [List.length_drop] at hfin
      omega

/-! ### Concrete evaluations of the well-founded definitions -/

theorem varintEncodeSkip_one : varintEncodeSkip 1 = 1 :=
  varintEncodeSkip_small 1 (by norm_num)

theorem varintEncodeSkip_150 : varintEncodeSkip 150 = 2 := by
  rw [varintEncodeSkip_large 150 (by norm_num),
    (by decide : (150 : Nat) >>> 7 = 1), varintEncodeSkip_one]

theorem varintEncodeSkip_u32max : varintEncodeSkip 4294967295 = 5 := by
  rw [varintEncodeSkip_large 4294967295 (by norm_num),
    (by decide : (4294967295 : Nat) >>> 7 = 33554431),
    varintEncodeSkip_large 33554431 (by norm_num),
    (by decide : (33554431 : Nat) >>> 7 = 262143),
    varintEncodeSkip_large 262143 (by norm_num),
    (by decide : (262143 : Nat) >>> 7 = 2047),
    varintEncodeSkip_large 2047 (by norm_num),
    (by decide : (2047 : Nat) >>> 7 = 15),
    varintEncodeSkip_small 15 (by norm_num)]

theorem varintEncodeUnsafe_150 : varintEncodeUnsafe 150 = [150, 1] := by
  rw [varintEncodeUnsafe_large 150 (by norm_num),
    (by decide : (150 : Nat) >>> 7 = 1),
    varintEncodeUnsafe_small 1 (by norm_num)]

/-! ### Claim theorems -/

/-- C1: for every unsigned value `v` of a `w`-bit codec value type and
every buffer large enough for its encoding, safe-mode
`varint_coder::decode` applied to the buffer produced by
`varint_coder::encode(v)` returns exactly `v`, and the remainder views of
encode and decode both begin `varintEncodeSkip v` bytes past the start of
the buffer. -/
theorem c1_varint_roundtrip (w v : Nat) (s : List Nat) (hw : 8 ≤ w)
    (hv : v < 2 ^ w) (hs : varintEncodeSkip v ≤ s.length) :
    (varintEncodeSafe v s).1 = some (varintEncodeSkip v) ∧
    varintDecodeSafe w ((varintEncodeSafe v s).2) =
      some (v, varintEncodeSkip v) := by
  rw [varintEncodeSafe_success v s hs]
  refine ⟨rfl, ?_⟩
  rw [varintDecodeSafe,
    varintDecodeSafeAux_encode w hw v 0 0 (s.drop (varintEncodeSkip v))
      (by simpa using hv) (by norm_num)]
  simp

/-- Witness for C1 at `w = 32`, `v = 150`, a 2-byte buffer. -/
theorem c1_varint_roundtrip_witness :
    (varintEncodeSafe 150 [0, 0]).1 = some (varintEncodeSkip 150) ∧
    varintDecodeSafe 32 ((varintEncodeSafe 150 [0, 0]).2) =
      some (150, varintEncodeSkip 150) :=
  c1_varint_roundtrip 32 150 [0, 0] (by norm_num) (by norm_num)
    (by rw [varintEncodeSkip_150]; norm_num)

/-- C2 counterexample: for the 32-bit decoder, a continuation run of 6
bytes (exceeding the claimed five-byte bound for a 32-bit type) followed by
a terminating byte inside the view does NOT produce an absent result: the
source decode loop has no width bound. -/
theorem c2_counterexample :
    varintDecodeSafe 32 [128, 128, 128, 128, 128, 128, 1] =
      some (0, 7) ∧
    varintDecodeSafe 32 [128, 128, 128, 128, 128, 128, 1] ≠ none := by
  constructor
  · decide
  · decide

/-- C2 amended: safe-mode `varint_coder::decode` returns an absent result
exactly when every byte of the view has the continuation bit set (in
particular on an empty view); no width bound is enforced, so a run longer
than the width bound whose terminator lies inside the view decodes to a
present result. -/
theorem c2_decode_absent_iff (w : Nat) (s : List Nat)
    (hbytes : ∀ b ∈ s, b < 256) :
    varintDecodeSafe w s = none ↔ ∀ b ∈ s, 128 ≤ b :=
  varintDecodeSafeAux_none_iff w s hbytes 0 0

/-- Witness for the amended C2 at `w = 32`, `s = [150, 1]`. -/
theorem c2_decode_absent_iff_witness :
    (varintDecodeSafe 32 [150, 1] = none ↔ ∀ b ∈ [150, 1], 128 ≤ b) :=
  c2_decode_absent_iff 32 [150, 1] (by decide)

/-- C9: safe-mode `varint_coder::encode` into a buffer shorter than the
encoded length returns an absent result, and no write past the view
occurs: the buffer after the call has exactly its original length (the
bounds check `iter == end` precedes each byte write). -/
theorem c9_safe_encode_underflow (v : Nat) (s : List Nat)
    (h : s.length < varintEncodeSkip v) :
    (varintEncodeSafe v s).1 = none ∧
    ((varintEncodeSafe v s).2).length = s.length :=
  ⟨varintEncodeSafe_fst_none v s h, varintEncodeSafe_sndLength v s⟩

/-- Witness for C9: encoding the 2-byte varint of 150 into a 1-byte buffer
returns absent, and the buffer still holds exactly one byte. -/
theorem c9_safe_encode_underflow_witness :
    (varintEncodeSafe 150 [0]).1 = none ∧
    ((varintEncodeSafe 150 [0]).2).length = [0].length :=
  c9_safe_encode_underflow 150 [0] (by rw [varintEncodeSkip_150]; norm_num)

/-- C10: whenever safe-mode varint encode, varint decode, or array decode
returns a present result, the returned remainder view is a suffix of the
input view: the input length is preserved (same end) and the returned
offset is at most the input length (begin between the input begin and
end). -/
theorem c10_remainder_suffix (w v : Nat) (s t u : List Nat)
    (elemDec : List Nat → Option (Nat × Nat))
    (helem : ∀ x a k, elemDec x = some (a, k) → k ≤ x.length) :
    (((varintEncodeSafe v s).2).length = s.length ∧
      ∀ k, (varintEncodeSafe v s).1 = some k → k ≤ s.length) ∧
    (∀ x k, varintDecodeSafe w t = some (x, k) → k ≤ t.length) ∧
    (∀ con k, arrayDecode elemDec u = some (con, k) → k ≤ u.length) := by
  refine ⟨⟨varintEncodeSafe_sndLength v s, ?_⟩,
    fun x k h => varintDecodeSafe_consumed_le w t x k h,
    fun con k h => arrayDecode_consumed_le elemDec helem u con k h⟩
  intro k hk
  by_cases hcase : varintEncodeSkip v ≤ s.length
  · rw [varintEncodeSafe_success v s hcase] at hk
    simp at hk
    omega
  · rw [varintEncodeSafe_fst_none v s (by omega)] at hk
    exact absurd hk (by simp)

/-- Witness for C10 at `w = 32`, `v = 150`, concrete views, with the
32-bit varint decoder as element decoder. -/
theorem c10_remainder_suffix_witness :
    (((varintEncodeSafe 150 [0, 0]).2).length = [0, 0].length ∧
      ∀ k, (varintEncodeSafe 150 [0, 0]).1 = some k → k ≤ [0, 0].length) ∧
    (∀ x k, varintDecodeSafe 32 [150, 1] = some (x, k) → k ≤ [150, 1].length) ∧
    (∀ con k, arrayDecode (varintDecodeSafe 32) [1, 128, 1] = some (con, k) →
      k ≤ [1, 128, 1].length) :=
  c10_remainder_suffix 32 150 [0, 0] [150, 1] [1, 128, 1]
    (varintDecodeSafe 32)
    (fun x a k h => varintDecodeSafe_consumed_le 32 x a k h)

/-- C3 counterexample: encoding the negative 32-bit value `-1` writes 5
bytes, not the 10 the claim requires: the signed specialization converts
to the SAME-width unsigned type (`std::make_unsigned_t<int32>`), so no
sign extension to 64 bits happens. -/
theorem c3_counterexample :
    (svarintEncodeSafe32 (-1) [0, 0, 0, 0, 0, 0, 0, 0, 0, 0]).1 = some 5 ∧
    (svarintEncodeSafe32 (-1) [0, 0, 0, 0, 0, 0, 0, 0, 0, 0]).1 ≠
      some 10 := by
  constructor
  · decide
  · decide

/-- C3 amended: for every negative value of a signed 32-bit integer type
(and a buffer of at least 5 bytes), `varint_coder` encode writes exactly 5
bytes — the value is converted to the same-width unsigned type by
two's-complement wrap-around, not sign-extended to 64 bits — and
`skipper::encode_skip` agrees. -/
theorem c3_negative_i32_five_bytes (n : Int) (s : List Nat)
    (h1 : -(2 ^ 31) ≤ n) (h2 : n < 0) (hs : 5 ≤ s.length) :
    svarintEncodeSkip32 n = 5 ∧
    (svarintEncodeSafe32 n s).1 = some 5 := by
  have hu : 2 ^ 31 ≤ toU32 n ∧ toU32 n < 2 ^ 32 := by
    rw [toU32]
    omega
  have hsize : (toU32 n).size = 32 := by
    apply Nat.le_antisymm
    · exact Nat.size_le.mpr (by exact_mod_cast hu.2)
    · have : 31 < (toU32 n).size := Nat.lt_size.mpr (by exact_mod_cast hu.1)
      omega
  have hskip : varintEncodeSkip (toU32 n) = 5 := by
    rw [varintEncodeSkip_eq_max, hsize]
    norm_num
  refine ⟨hskip, ?_⟩
  rw [svarintEncodeSafe32, varintEncodeSafe_success _ s (by omega)]
  simp [hskip]

/-- Witness for the amended C3 at `n = -1` with a 5-byte buffer. -/
theorem c3_negative_i32_five_bytes_witness :
    svarintEncodeSkip32 (-1) = 5 ∧
    (svarintEncodeSafe32 (-1) [0, 0, 0, 0, 0]).1 = some 5 :=
  c3_negative_i32_five_bytes (-1) [0, 0, 0, 0, 0] (by norm_num) (by norm_num)
    (by norm_num)

/-- C4: evaluation at the failing input.  For an enumeration with
underlying type `int`, the enumerator with value 1 encodes as the single
byte `0x01` and `skipper::encode_skip` reports 1 byte, but
`skipper::decode_skip` — which delegates to the FIXED-WIDTH integer
skipper instead of the varint skipper — skips 4 bytes on a 4-byte view and
returns absent on the exact 1-byte view that `enum_coder::encode`
produced.  It does not advance by `encode_skip(v)` bytes as the skip law
requires. -/
theorem c4_enum_skip_mismatch :
    enumEncodeSkip 1 = 1 ∧
    (enumEncodeSafe 1 [0, 0, 0, 0]).1 = some 1 ∧
    enumDecodeSkipSafe [1, 0, 0, 0] = some 4 ∧
    enumDecodeSkipSafe [1] = none := by
  refine ⟨?_, by decide, by decide, by decide⟩
  rw [enumEncodeSkip, (by decide : toU32 1 = 1), varintEncodeSkip_one]

/-- C5 counterexample: with the 32-bit varint element decoder, the view
`[0x01, 0x80, 0x01]` declares a 1-byte payload whose single element
encoding straddles the claimed boundary (it takes 2 bytes); safe-mode
`array_coder::decode` does NOT return an absent result: it decodes the
element past the boundary and returns it, having consumed 2 payload bytes
where the length prefix promised 1. -/
theorem c5_counterexample :
    arrayDecode (varintDecodeSafe 32) [1, 128, 1] = some ([128], 3) ∧
    arrayDecode (varintDecodeSafe 32) [1, 128, 1] ≠ none := by
  constructor
  · decide
  · decide

/-- C5 amended: after reading the length prefix `L`, safe-mode
`array_coder::decode` repeatedly decodes elements until the consumed
payload reaches AT LEAST `L`; an element straddling the boundary is
decoded anyway (no absent result), so on success the decoded elements
occupy at least `L` payload bytes, possibly more. -/
theorem c5_array_decode_payload_ge (elemDec : List Nat → Option (α × Nat))
    (b : List Nat) (con : List α) (k : Nat)
    (h : arrayDecode elemDec b = some (con, k)) :
    ∃ L j, varintDecodeSafe 64 b = some (L, j) ∧ j + L ≤ k := by
  rw [arrayDecode] at h
  rcases hP : varintDecodeSafe 64 b with _ | ⟨len, j⟩
  · rw [hP] at h
    simp at h
  · rw [hP] at h
    dsimp only at h
    rcases hL : arrayDecodeLoop elemDec (b.drop j) 0 len len with
      _ | ⟨con1, fin⟩
    · rw [hL] at h
      simp at h
    · rw [hL] at h
      simp only [Option.some.injEq, Prod.mk.injEq] at h
      have := arrayDecodeLoop_ge_len elemDec (b.drop j) len 0 len con1 fin hL
      exact ⟨len, j, rfl, by omega⟩

/-- Witness for the amended C5 at the counterexample input. -/
theorem c5_array_decode_payload_ge_witness :
    ∃ L j, varintDecodeSafe 64 [1, 128, 1] = some (L, j) ∧ j + L ≤ 3 :=
  c5_array_decode_payload_ge (varintDecodeSafe 32) [1, 128, 1] [128] 3
    (by decide)

theorem varintEncodeSkip_three : varintEncodeSkip 3 = 1 :=
  varintEncodeSkip_small 3 (by norm_num)

/-- C6: for a lawful element coder (each element's encode writes exactly
`encode_skip` bytes), `array_coder::encode` first emits the varint of
`L = Σ skipper<C>::encode_skip(element)`, then the element encodings in
order, for a total of `varint_len(L) + L` bytes, which is exactly
`skipper<array_coder>::encode_skip(con)`. -/
theorem c6_array_encode_length (elemSkip : α → Nat)
    (elemWritten : α → List Nat)
    (elemEnc : α → List Nat → Option Nat × List Nat)
    (hlen : ∀ a, (elemWritten a).length = elemSkip a)
    (henc : ∀ a s, elemSkip a ≤ s.length →
      elemEnc a s = (some (elemSkip a), elemWritten a ++ s.drop (elemSkip a)))
    (con : List α) (b : List Nat)
    (hL : (con.map elemSkip).sum < 2 ^ 64)
    (hL2 : (con.map elemSkip).sum +
      varintEncodeSkip ((con.map elemSkip).sum) < 2 ^ 64)
    (hb : varintEncodeSkip ((con.map elemSkip).sum) +
      (con.map elemSkip).sum ≤ b.length) :
    arrayEncode elemSkip elemEnc con b =
      (some (varintEncodeSkip ((con.map elemSkip).sum) +
        (con.map elemSkip).sum),
       varintEncodeUnsafe ((con.map elemSkip).sum) ++
         ((con.map elemWritten).flatten ++
          b.drop (varintEncodeSkip ((con.map elemSkip).sum) +
            (con.map elemSkip).sum))) ∧
    arrayEncodeSkip elemSkip con =
      varintEncodeSkip ((con.map elemSkip).sum) +
        (con.map elemSkip).sum := by
  have hsum : sumSkipsU64 elemSkip con = (con.map elemSkip).sum :=
    sumSkipsU64_eq elemSkip con hL
  constructor
  · rw [arrayEncode]
    dsimp only
    rw [hsum]
    rw [varintEncodeSafe_success _ b (by omega)]
    dsimp only
    have hdrop : ((varintEncodeUnsafe ((con.map elemSkip).sum) ++
        b.drop (varintEncodeSkip ((con.map elemSkip).sum))).drop
          (varintEncodeSkip ((con.map elemSkip).sum))) =
        b.drop (varintEncodeSkip ((con.map elemSkip).sum)) := by
      rw [← varintEncodeUnsafe_length ((con.map elemSkip).sum)]
      exact List.drop_left _ _
    have htake : ((varintEncodeUnsafe ((con.map elemSkip).sum) ++
        b.drop (varintEncodeSkip ((con.map elemSkip).sum))).take
          (varintEncodeSkip ((con.map elemSkip).sum))) =
        varintEncodeUnsafe ((con.map elemSkip).sum) := by
      rw [← varintEncodeUnsafe_length ((con.map elemSkip).sum)]
      exact List.take_left _ _
    rw [hdrop, arrayEncodeElems_success elemSkip elemWritten elemEnc hlen
      henc con _ (by simp only [List.length_drop]; omega)]
    dsimp only
    rw [htake, List.drop_drop]
    rfl
  · rw [arrayEncodeSkip]
    rw [hsum, Nat.mod_eq_of_lt hL2]
    omega

/-- Witness for C6: two varint elements `[150, 1]` (payload `L = 3`)
encoded into a 5-byte buffer, with the varint coder as element coder. -/
theorem c6_array_encode_length_witness :
    arrayEncode varintEncodeSkip varintEncodeSafe [150, 1]
        [0, 0, 0, 0, 0] =
      (some (varintEncodeSkip (([150, 1].map varintEncodeSkip).sum) +
        (([150, 1].map varintEncodeSkip).sum)),
       varintEncodeUnsafe (([150, 1].map varintEncodeSkip).sum) ++
         (([150, 1].map varintEncodeUnsafe).flatten ++
          [0, 0, 0, 0, 0].drop
            (varintEncodeSkip (([150, 1].map varintEncodeSkip).sum) +
              (([150, 1].map varintEncodeSkip).sum)))) ∧
    arrayEncodeSkip varintEncodeSkip [150, 1] =
      varintEncodeSkip (([150, 1].map varintEncodeSkip).sum) +
        (([150, 1].map varintEncodeSkip).sum) :=
  c6_array_encode_length varintEncodeSkip varintEncodeUnsafe
    varintEncodeSafe (fun a => varintEncodeUnsafe_length a)
    (fun a s h => varintEncodeSafe_success a s h) [150, 1] [0, 0, 0, 0, 0]
    (by simp [varintEncodeSkip_150, varintEncodeSkip_one])
    (by simp [varintEncodeSkip_150, varintEncodeSkip_one,
      varintEncodeSkip_three])
    (by simp [varintEncodeSkip_150, varintEncodeSkip_one,
      varintEncodeSkip_three])

/-- C7: the varint encoding of `n` written by safe-mode encode (on a
sufficient buffer) is exactly `varintEncodeUnsafe n`, whose length is
`max(1, ceil(bitlen(n) / 7))` and equals `skipper::encode_skip(n)`; every
byte but the last has its most significant bit set, the last byte has it
clear, and `n = 0` encodes as the single byte `0x00`. -/
theorem c7_varint_canonical (n : Nat) (s : List Nat)
    (hs : varintEncodeSkip n ≤ s.length) :
    varintEncodeSafe n s =
      (some (varintEncodeSkip n),
       varintEncodeUnsafe n ++ s.drop (varintEncodeSkip n)) ∧
    (varintEncodeUnsafe n).length = max 1 ((Nat.size n + 6) / 7) ∧
    varintEncodeSkip n = max 1 ((Nat.size n + 6) / 7) ∧
    (∀ b ∈ (varintEncodeUnsafe n).dropLast, 128 ≤ b) ∧
    (∀ d, (varintEncodeUnsafe n).getLastD d < 128) ∧
    varintEncodeUnsafe 0 = [0] := by
  refine ⟨varintEncodeSafe_success n s hs, ?_, varintEncodeSkip_eq_max n,
    varintEncodeUnsafe_dropLast n, varintEncodeUnsafe_getLastD n, ?_⟩
  · rw [varintEncodeUnsafe_length, varintEncodeSkip_eq_max]
  · rw [varintEncodeUnsafe_small 0 (by norm_num)]

/-- Witness for C7 at `n = 150` with a 2-byte buffer. -/
theorem c7_varint_canonical_witness :
    varintEncodeSafe 150 [0, 0] =
      (some (varintEncodeSkip 150),
       varintEncodeUnsafe 150 ++ [0, 0].drop (varintEncodeSkip 150)) ∧
    (varintEncodeUnsafe 150).length = max 1 ((Nat.size 150 + 6) / 7) ∧
    varintEncodeSkip 150 = max 1 ((Nat.size 150 + 6) / 7) ∧
    (∀ b ∈ (varintEncodeUnsafe 150).dropLast, 128 ≤ b) ∧
    (∀ d, (varintEncodeUnsafe 150).getLastD d < 128) ∧
    varintEncodeUnsafe 0 = [0] :=
  c7_varint_canonical 150 [0, 0] (by rw [varintEncodeSkip_150]; norm_num)

/-- C8: safe and unsafe modes agree.  On a buffer large enough for the
encoding, safe-mode encode succeeds and writes exactly the unsafe-mode
byte stream, with the remainder beginning at the same offset; on a view
holding a complete varint (some byte with its most significant bit
clear), unsafe-mode decode — whatever the memory behind the view holds —
returns exactly the safe-mode result. -/
theorem c8_safe_unsafe_agree (w v : Nat) (s t : List Nat) (mem : Nat → Nat)
    (fuel : Nat) (hs : varintEncodeSkip v ≤ s.length)
    (ht : ∃ b ∈ t, b < 128) (hfuel : t.length ≤ fuel) :
    varintEncodeSafe v s =
      (some (varintEncodeSkip v),
       varintEncodeUnsafe v ++ s.drop (varintEncodeSkip v)) ∧
    varintDecodeUnsafe w t mem fuel = varintDecodeSafe w t := by
  refine ⟨varintEncodeSafe_success v s hs, ?_⟩
  rw [varintDecodeUnsafe, varintDecodeSafe,
    varintDecodeUnsafeAux_eq_safe w mem fuel 0 0 0 t (by simpa using ht)
      (by omega)]
  simp

/-- Witness for C8 at `w = 32`, `v = 150`, `t = [150, 1]`, with memory
behind the view filled with continuation bytes. -/
theorem c8_safe_unsafe_agree_witness :
    varintEncodeSafe 150 [0, 0] =
      (some (varintEncodeSkip 150),
       varintEncodeUnsafe 150 ++ [0, 0].drop (varintEncodeSkip 150)) ∧
    varintDecodeUnsafe 32 [150, 1] (fun _ => 200) 2 =
      varintDecodeSafe 32 [150, 1] :=
  c8_safe_unsafe_agree 32 150 [0, 0] [150, 1] (fun _ => 200) 2
    (by rw [varintEncodeSkip_150]; norm_num) (by decide) (by norm_num)

end Protopuf
